import Mathlib

/-!
The streaming renderer and the conversation driver of go-dreaming-of-adventure-sample.

A shallow embedding of `adventure.go`, and the properties its specification states.

* The process state the program touches is a `World`: the package variable `col`, the
  chronological record of the effects performed so far, and what is left of standard input.
* A Go `string` is embedded as a Lean `String` and a `rune` as a `Char`. The loop
  `for _, c := range text` walks the runes decoded from `text`, and `string(c)` is the
  one-rune string of `c`; a text stands for the sequence of runes that loop sees (bytes that
  are not UTF-8 reach it as U+FFFD).
* `col` is a Go `int`, here of 64 bits, and its only arithmetic is `col++`. The renderer is
  given twice. `printRuneFormatted` and `printStringFormatted` take the column as an integer
  without bound; `Machine.printRuneFormatted` and `Machine.printStringFormatted` are the same
  code on the machine integer, whose increment wraps around. The two agree as long as no
  increment wraps (`Machine_printRuneFormatted_eq`, `Machine_printStringFormatted_eq`), which
  from column zero takes a line of `2^63` characters. What is claimed of one step at an
  arbitrary cursor is stated on the machine integer.
* `time.Duration` counts nanoseconds and is embedded as a `Nat`.
* The endless loop of `chat` is run for a bounded number of iterations, and every property of
  it is stated for every bound. The loop of `askUser` ends by itself (`askUser_ends`).
* The model service and the buffering of standard input are parameters (`Env`).
-/

namespace Adventure

/-! ## Effects and process state -/

/-- Durations in nanoseconds, as `time.Duration`. -/
abbrev Duration := Nat

/-- The constant `time.Millisecond`. -/
def Millisecond : Duration := 1000000

/-- One effect performed by the program, in the order of execution. -/
inductive Event where
  /-- The call `fmt.Print(s)` (or `fmt.Println()` with `s = "\n"`): `s` goes to standard output. -/
  | print (s : String)
  /-- The call `time.Sleep(d)`. -/
  | sleep (d : Duration)
  /-- The call `session.SendMessageStream(ctx, genai.Text(text))`. -/
  | send (text : String)
  /-- Observation only: `askUser` returned `action` to its caller. -/
  | answer (action : String)
  deriving DecidableEq

/-- The state of the process: the global `col`, the effects so far, the unread standard input. -/
structure World where
  col : Int
  events : List Event
  stdin : List Char
  deriving DecidableEq

/-- Performing one more effect. -/
def World.emit (e : Event) (w : World) : World :=
  ⟨w.col, w.events ++ [e], w.stdin⟩

/-- Assignment to the global `col`. -/
def World.setCol (c : Int) (w : World) : World :=
  ⟨c, w.events, w.stdin⟩

/-- The call `fmt.Print(s)`. -/
def Print (s : String) (w : World) : World := w.emit (Event.print s)

/-- The call `time.Sleep(d)`. -/
def Sleep (d : Duration) (w : World) : World := w.emit (Event.sleep d)

/-- The package variable `sleepTime`. -/
structure SleepTime where
  character : Duration
  sentence : Duration

/-- The value `sleepTime` is initialised with. -/
def sleepTime : SleepTime := ⟨Millisecond * 30, Millisecond * 300⟩

/-! ## The streaming renderer -/

/-- The function `printRuneFormatted`: the `switch` on the rune, then the per-character sleep.
The column is an integer without bound here; `Machine.printRuneFormatted` has it wrap. -/
def printRuneFormatted (c : Char) (w : World) : World :=
  let w1 : World :=
    if c = '.' then
      let w2 := Print (String.singleton c) w
      let w3 := w2.setCol (w2.col + 1)
      Sleep sleepTime.sentence w3
    else if c = '\n' then
      let w2 := Print (String.singleton c) w
      w2.setCol 0
    else if c = ' ' then
      if w.col = 0 then
        w
      else if w.col > 80 then
        let w2 := Print "\n" w
        w2.setCol 0
      else
        let w2 := Print (String.singleton c) w
        w2.setCol (w2.col + 1)
    else
      let w2 := Print (String.singleton c) w
      w2.setCol (w2.col + 1)
  Sleep sleepTime.character w1

/-- The function `printStringFormatted`: one `printRuneFormatted` per rune, in order. -/
def printStringFormatted (text : String) (w : World) : World :=
  text.data.foldl (fun acc c => printRuneFormatted c acc) w

/-! ## The renderer on the machine integer

In `printRuneFormatted` above the column is an integer without bound. The functions of
this section are the same code with `col` a 64-bit Go `int`, whose `col++` wraps around. The
two agree as long as no increment wraps (`Machine_printStringFormatted_eq`). -/

/-- The smallest value of a 64-bit Go `int`. -/
def Machine.minInt : Int := -9223372036854775808

/-- The largest value of a 64-bit Go `int`. -/
def Machine.maxInt : Int := 9223372036854775807

/-- The value of a 64-bit Go `int` after an arithmetic result `x`: `x` modulo `2^64`, taken
in the range from `minInt` to `maxInt`. -/
def Machine.wrap (x : Int) : Int :=
  (x + 9223372036854775808) % 18446744073709551616 - 9223372036854775808

/-- The function `printRuneFormatted`, with `col++` on the 64-bit `int`. -/
def Machine.printRuneFormatted (c : Char) (w : World) : World :=
  let w1 : World :=
    if c = '.' then
      let w2 := Print (String.singleton c) w
      let w3 := w2.setCol (Machine.wrap (w2.col + 1))
      Sleep sleepTime.sentence w3
    else if c = '\n' then
      let w2 := Print (String.singleton c) w
      w2.setCol 0
    else if c = ' ' then
      if w.col = 0 then
        w
      else if w.col > 80 then
        let w2 := Print "\n" w
        w2.setCol 0
      else
        let w2 := Print (String.singleton c) w
        w2.setCol (Machine.wrap (w2.col + 1))
    else
      let w2 := Print (String.singleton c) w
      w2.setCol (Machine.wrap (w2.col + 1))
  Sleep sleepTime.character w1

/-- The function `printStringFormatted` over `Machine.printRuneFormatted`. -/
def Machine.printStringFormatted (text : String) (w : World) : World :=
  text.data.foldl (fun acc c => Machine.printRuneFormatted c acc) w

/-! ## Observations on a world -/

/-- The characters an event puts on standard output. -/
def Event.written : Event → List Char
  | Event.print s => s.data
  | _ => []

/-- The duration an event sleeps, if it is a sleep. -/
def Event.slept : Event → List Duration
  | Event.sleep d => [d]
  | _ => []

/-- Everything written to standard output so far, as one character sequence. -/
def output (w : World) : List Char := (w.events.map Event.written).flatten

/-- The durations of the sleeps so far, in order. -/
def sleeps (w : World) : List Duration := (w.events.map Event.slept).flatten

/-- The total time slept so far. -/
def timeSlept (w : World) : Duration := (sleeps w).sum

/-- The texts handed to the model so far, in order. -/
def Event.sentText : Event → List String
  | Event.send text => [text]
  | _ => []

/-- The answers `askUser` has returned so far, in order. -/
def Event.answered : Event → List String
  | Event.answer action => [action]
  | _ => []

/-- The texts passed to `SendMessageStream` so far, in order. -/
def sentTexts (w : World) : List String := (w.events.map Event.sentText).flatten

/-- The values returned by `askUser` so far, in order. -/
def answers (w : World) : List String := (w.events.map Event.answered).flatten

/-- The number of characters on the current output line: those written after the last
newline, or the whole output when no newline has been written. -/
def currentLineLength (out : List Char) : Nat :=
  (out.reverse.takeWhile (fun ch => ch != '\n')).length

/-! ## Library functions the driver calls -/

/-- The predicate `unicode.IsSpace`: the runes with the Unicode White_Space property. -/
def IsSpace (r : Char) : Bool :=
  let n := r.toNat
  (decide (0x09 ≤ n) && decide (n ≤ 0x0D)) || n == 0x20 || n == 0x85 || n == 0xA0 ||
    n == 0x1680 || (decide (0x2000 ≤ n) && decide (n ≤ 0x200A)) || n == 0x2028 ||
    n == 0x2029 || n == 0x202F || n == 0x205F || n == 0x3000

/-- The function `strings.TrimSpace`: the string without its leading and its trailing
white space, as `unicode.IsSpace` defines it. -/
def TrimSpace (s : String) : String :=
  ⟨((s.data.dropWhile IsSpace).reverse.dropWhile IsSpace).reverse⟩

/-- What `fmt.Sprintf` appends for operands the format did not use:
`%!(EXTRA string=a, string=b)`. -/
def sprintfExtra : List String → List Char
  | [] => []
  | a :: rest =>
    "%!(EXTRA string=".data ++ a.data ++
      (rest.map (fun b => ", string=".data ++ b.data)).flatten ++ [')']

/-- The formatting loop of `fmt.Sprintf` on string operands, for the directives `%v` (the
operand as it is) and `%%`; a `%v` without operand gives `%!v(MISSING)`.  The program uses
no other directive, and any other is left in place here. -/
def sprintfLoop : List Char → List String → List Char
  | [], args => sprintfExtra args
  | [c], args => c :: sprintfExtra args
  | c :: d :: rest, args =>
    if c = '%' then
      if d = 'v' then
        match args with
        | a :: args1 => a.data ++ sprintfLoop rest args1
        | [] => "%!v(MISSING)".data ++ sprintfLoop rest []
      else if d = '%' then '%' :: sprintfLoop rest args
      else c :: sprintfLoop (d :: rest) args
    else c :: sprintfLoop (d :: rest) args

/-- The function `fmt.Sprintf` with string operands. -/
def Sprintf (format : String) (args : List String) : String :=
  ⟨sprintfLoop format.data args⟩

/-- The method `(*bufio.Reader).ReadString` on the unread input: the input up to and
including the first `delim`, and what follows it; `none` when the input ends before a
`delim` (the call then returns an error). -/
def ReadString (delim : Char) : List Char → Option (List Char × List Char)
  | [] => none
  | c :: rest =>
    if c = delim then some ([c], rest)
    else
      match ReadString delim rest with
      | some (line, rest1) => some (c :: line, rest1)
      | none => none

/-! ## The conversation driver -/

/-- One step of the iterator `SendMessageStream` returns: a response with its candidates, or
an error. A candidate is the list of the parts of its `Content` (a part stands for its
rendering under `%v`), or `none` when its `Content` is nil. The end of the list is
`iterator.Done`. -/
inductive StreamItem where
  | resp (candidates : List (Option (List String)))
  | err
  deriving DecidableEq

/-- The collaborators of the driver, which the program does not control. -/
structure Env where
  /-- The stream the model answers with, given the texts sent so far in the session (the
  last one is the message being answered). -/
  reply : List String → List StreamItem
  /-- How many characters past the returned line the `bufio.Reader` of an `askUser` call
  had already taken from standard input when the call returned; the next call makes a new
  reader and does not see them. -/
  readAhead : List Char → Nat

/-- How a call ends. -/
inductive Result (α : Type) where
  /-- The call returned `a`. -/
  | done (a : α) (w : World)
  /-- The process exited with status `code` (`log.Fatalf`, `os.Exit`, a panic). -/
  | exit (code : Nat) (w : World)
  /-- The bound on the number of loop iterations was reached with the loop still going. -/
  | running (w : World)

/-- The world a call ends in. -/
def Result.world {α : Type} : Result α → World
  | Result.done _ w => w
  | Result.exit _ w => w
  | Result.running w => w

/-- The loop of `askUser`, for at most the given number of iterations. -/
def askUserLoop (env : Env) (prompt : String) : Nat → World → Result String
  | 0, w => Result.running w
  | fuel + 1, w =>
    let w1 := printStringFormatted (Sprintf "%v " [prompt]) w
    match ReadString '\n' w1.stdin with
    | none => Result.exit 1 w1
    | some (line, rest) =>
      let action := TrimSpace ⟨line⟩
      if action.length = 0 then
        askUserLoop env prompt fuel ⟨w1.col, w1.events, rest⟩
      else
        Result.done action
          ((World.mk w1.col w1.events (rest.drop (env.readAhead rest))).emit
            (Event.answer action))

/-- The function `askUser`. Every iteration that does not end the call reads at least one
character, so one iteration more than there are characters is enough iterations. -/
def askUser (env : Env) (prompt : String) (w : World) : Result String :=
  askUserLoop env prompt (w.stdin.length + 1) w

/-- The function `streamPartialResponse`. -/
def streamPartialResponse (parts : List String) (w : World) : World :=
  parts.foldl (fun acc part => printStringFormatted (Sprintf "%v" [part]) acc) w

/-- The loop `for _, cand := range resp.Candidates` of `sendAndPrintResponse`. Reading
`cand.Content.Parts` of a candidate whose `Content` is nil is a nil pointer dereference: the
program panics, and the process exits with status 2. -/
def streamCandidates : List (Option (List String)) → World → Result Unit
  | [], w => Result.done () w
  | none :: _, w => Result.exit 2 w
  | some parts :: rest, w => streamCandidates rest (streamPartialResponse parts w)

/-- The loop of `sendAndPrintResponse` over what the iterator yields. The diagnostics the
error branch logs go to standard error and are left out. -/
def consumeStream : List StreamItem → World → Result Unit
  | [], w => Result.done () (printRuneFormatted '\n' w)
  | StreamItem.err :: _, w =>
    Result.exit 1
      (printStringFormatted
        "\n\nYou feel a jolt of electricity as you realize you're being unplugged from the matrix.\n\n"
        w)
  | StreamItem.resp candidates :: rest, w =>
    match streamCandidates candidates w with
    | Result.done _ w1 => consumeStream rest w1
    | Result.exit code w1 => Result.exit code w1
    | Result.running w1 => Result.running w1

/-- The function `sendAndPrintResponse`. -/
def sendAndPrintResponse (env : Env) (text : String) (w : World) : Result Unit :=
  let w1 := w.emit (Event.send text)
  let w2 := printRuneFormatted '\n' w1
  let w3 := printRuneFormatted '\n' w2
  consumeStream (env.reply (sentTexts w1)) w3

/-- The function `chat`, for at most the given number of iterations of its endless loop. -/
def chat (env : Env) : Nat → World → Result Unit
  | 0, w => Result.running w
  | fuel + 1, w =>
    let w1 := Print "\n" w
    match askUser env ">>" w1 with
    | Result.done action w2 =>
      let resp := Sprintf "The user wrote: %v\n\nWrite the next short paragraph." [action]
      match sendAndPrintResponse env resp w2 with
      | Result.done _ w3 => chat env fuel w3
      | Result.exit code w3 => Result.exit code w3
      | Result.running w3 => Result.running w3
    | Result.exit code w2 => Result.exit code w2
    | Result.running w2 => Result.running w2

/-- The function `main` from the first output on, with `chat` bounded as above. -/
def main (env : Env) (fuel : Nat) (w : World) : Result Unit :=
  let dreamQuestion := "What do you want to dream about?"
  let w1 := printRuneFormatted '\n' w
  match askUser env dreamQuestion w1 with
  | Result.done topic w2 =>
    match sendAndPrintResponse env topic w2 with
    | Result.done _ w3 => chat env fuel w3
    | Result.exit code w3 => Result.exit code w3
    | Result.running w3 => Result.running w3
  | Result.exit code w2 => Result.exit code w2
  | Result.running w2 => Result.running w2

/-- The world the process starts in: `col` is `0`, nothing has happened yet. -/
def World.start (stdin : List Char) : World := ⟨0, [], stdin⟩

/-! ## Reference definitions, written after the specification -/

/-- The reference step of the specification at a cursor `c ≥ 0`: what one character writes
and the cursor it leaves. -/
def referenceStep (c : Nat) (ch : Char) : List Char × Nat :=
  if ch = '.' then (['.'], c + 1)
  else if ch = '\n' then (['\n'], 0)
  else if ch = ' ' then
    if c = 0 then ([], 0)
    else if c > 80 then (['\n'], 0)
    else ([' '], c + 1)
  else ([ch], c + 1)

/-- The column after one character has been written at column `c`: a newline brings it to
zero, any other character advances it by one. -/
def columnAfter (c : Int) (d : Char) : Int :=
  if d = '\n' then 0 else c + 1

/-- The edits the specification allows between a text and its rendering begun at column
`c`: every character is written as it is, except that a space may be dropped when the
column is zero, and may be replaced by one newline when the column is past 80. -/
def editsAt (c : Int) : List Char → List Char → Bool
  | [], out => out.isEmpty
  | ch :: text, out =>
    (match out with
      | d :: out1 => ch == d && editsAt (columnAfter c d) text out1
      | [] => false) ||
    (ch == ' ' && decide (c = 0) && editsAt c text out) ||
    (ch == ' ' && decide (c > 80) &&
      (match out with
        | d :: out1 => d == '\n' && editsAt 0 text out1
        | [] => false))

/-- The visible characters of a text: all but the spaces and the newlines. -/
def visible (l : List Char) : List Char :=
  l.filter (fun ch => ch != ' ' && ch != '\n')

/-- One call of the renderer. -/
inductive Call where
  | rune (c : Char)
  | text (s : String)
  deriving DecidableEq

/-- Performing one call of the renderer. -/
def Call.run : Call → World → World
  | Call.rune c, w => printRuneFormatted c w
  | Call.text s, w => printStringFormatted s w

/-- Performing a sequence of calls of the renderer, in order. -/
def runCalls (calls : List Call) (w : World) : World :=
  calls.foldl (fun acc k => k.run acc) w

/-- The texts the specification expects the model to be given for the answers of the user:
the first answer as it is, every later answer inside the fixed template. -/
def expectedTexts : List String → List String
  | [] => []
  | a1 :: later =>
    a1 :: later.map (fun ai => "The user wrote: " ++ ai ++ "\n\nWrite the next short paragraph.")

/-- The value a call returned, if it returned. -/
def Result.returned {α : Type} : Result α → List α
  | Result.done a _ => [a]
  | _ => []

/-- A stream item the program prints and goes on from: a response, and none of its
candidates has a nil `Content`. -/
def StreamItem.printable : StreamItem → Bool
  | StreamItem.resp candidates => candidates.all Option.isSome
  | StreamItem.err => false

/-! ## Basic facts about the renderer -/

section Renderer

@[simp] theorem output_emit_print (s : String) (w : World) :
    output (w.emit (Event.print s)) = output w ++ s.data := by
  simp [output, World.emit, Event.written]

@[simp] theorem output_emit_sleep (d : Duration) (w : World) :
    output (w.emit (Event.sleep d)) = output w := by
  simp [output, World.emit, Event.written]

@[simp] theorem output_setCol (c : Int) (w : World) : output (w.setCol c) = output w := rfl

@[simp] theorem sleeps_emit_print (s : String) (w : World) :
    sleeps (w.emit (Event.print s)) = sleeps w := by
  simp [sleeps, World.emit, Event.slept]

@[simp] theorem sleeps_emit_sleep (d : Duration) (w : World) :
    sleeps (w.emit (Event.sleep d)) = sleeps w ++ [d] := by
  simp [sleeps, World.emit, Event.slept]

@[simp] theorem sleeps_setCol (c : Int) (w : World) : sleeps (w.setCol c) = sleeps w := rfl

@[simp] theorem col_emit (e : Event) (w : World) : (w.emit e).col = w.col := rfl

@[simp] theorem col_setCol (c : Int) (w : World) : (w.setCol c).col = c := rfl

/-- The cursor after one rune, by cases on the rune and the cursor before. -/
theorem col_printRuneFormatted (c : Char) (w : World) :
    (printRuneFormatted c w).col =
      if c = '\n' then 0
      else if c = ' ' then (if w.col = 0 then 0 else if w.col > 80 then 0 else w.col + 1)
      else w.col + 1 := by
  unfold printRuneFormatted
  by_cases h1 : c = '.'
  · subst h1; simp [Sleep, Print]
  · by_cases h2 : c = '\n'
    · subst h2; simp [Sleep, Print]
    · by_cases h3 : c = ' '
      · subst h3
        by_cases h4 : w.col = 0
        · simp [Sleep, h4]
        · by_cases h5 : w.col > 80 <;> simp [Sleep, Print, h4, h5]
      · simp [Sleep, Print, h1, h2, h3]

/-- The output after one rune, by cases on the rune and the cursor before. -/
theorem output_printRuneFormatted (c : Char) (w : World) :
    output (printRuneFormatted c w) =
      output w ++
        (if c = ' ' then (if w.col = 0 then [] else if w.col > 80 then ['\n'] else [' '])
         else [c]) := by
  unfold printRuneFormatted
  by_cases h1 : c = '.'
  · subst h1; simp [Sleep, Print]
  · by_cases h2 : c = '\n'
    · subst h2; simp [Sleep, Print]
    · by_cases h3 : c = ' '
      · subst h3
        by_cases h4 : w.col = 0
        · simp [Sleep, h4]
        · by_cases h5 : w.col > 80 <;> simp [Sleep, Print, h4, h5]
      · simp [Sleep, Print, h1, h2, h3]

/-- The sleeps of one rune: the sentence delay first when the rune is a period, then the
per-character delay; the cursor plays no part. -/
theorem sleeps_printRuneFormatted (c : Char) (w : World) :
    sleeps (printRuneFormatted c w) =
      sleeps w ++
        (if c = '.' then [sleepTime.sentence, sleepTime.character] else [sleepTime.character]) := by
  unfold printRuneFormatted
  by_cases h1 : c = '.'
  · subst h1; simp [Sleep, Print]
  · by_cases h2 : c = '\n'
    · subst h2; simp [Sleep, Print]
    · by_cases h3 : c = ' '
      · subst h3
        by_cases h4 : w.col = 0
        · simp [Sleep, h4]
        · by_cases h5 : w.col > 80 <;> simp [Sleep, Print, h4, h5]
      · simp [Sleep, Print, h1, h2, h3]

theorem printStringFormatted_nil (w : World) : printStringFormatted ⟨[]⟩ w = w := rfl

theorem printStringFormatted_cons (c : Char) (l : List Char) (w : World) :
    printStringFormatted ⟨c :: l⟩ w = printStringFormatted ⟨l⟩ (printRuneFormatted c w) := rfl

theorem printStringFormatted_append (a b : String) (w : World) :
    printStringFormatted (a ++ b) w = printStringFormatted b (printStringFormatted a w) := by
  simp [printStringFormatted, List.foldl_append]

/-- A run of runes that are neither spaces nor newlines is written as it is and moves the
cursor by its length. -/
theorem printStringFormatted_run (l : List Char) (w : World)
    (hl : ∀ c ∈ l, c ≠ ' ' ∧ c ≠ '\n') :
    output (printStringFormatted ⟨l⟩ w) = output w ++ l ∧
      (printStringFormatted ⟨l⟩ w).col = w.col + l.length := by
  induction l generalizing w with
  | nil => simp [printStringFormatted]
  | cons c l ih =>
    have hc := hl c (List.mem_cons_self c l)
    have ih1 := ih (printRuneFormatted c w) (fun d hd => hl d (List.mem_cons_of_mem c hd))
    rw [printStringFormatted_cons, ih1.1, ih1.2, output_printRuneFormatted,
      col_printRuneFormatted]
    simp [hc.1, hc.2]
    omega

/-- Spaces arriving at column zero write nothing and leave the cursor at zero. -/
theorem printStringFormatted_spaces (k : Nat) (w : World) (h : w.col = 0) :
    output (printStringFormatted ⟨List.replicate k ' '⟩ w) = output w ∧
      (printStringFormatted ⟨List.replicate k ' '⟩ w).col = 0 := by
  induction k generalizing w with
  | zero => simpa [printStringFormatted] using h
  | succ k ih =>
    have hcol : (printRuneFormatted ' ' w).col = 0 := by
      rw [col_printRuneFormatted]; simp [h]
    have hout : output (printRuneFormatted ' ' w) = output w := by
      rw [output_printRuneFormatted]; simp [h]
    have ih1 := ih (printRuneFormatted ' ' w) hcol
    rw [List.replicate_succ, printStringFormatted_cons, ih1.1, ih1.2, hout]
    exact ⟨rfl, rfl⟩

/-- What a text writes and the cursor it leaves depend on the world only through its
cursor. -/
theorem printStringFormatted_frame (l : List Char) (w1 w2 : World) (h : w1.col = w2.col) :
    (printStringFormatted ⟨l⟩ w1).col = (printStringFormatted ⟨l⟩ w2).col ∧
      ∃ d, output (printStringFormatted ⟨l⟩ w1) = output w1 ++ d ∧
        output (printStringFormatted ⟨l⟩ w2) = output w2 ++ d := by
  induction l generalizing w1 w2 with
  | nil => exact ⟨h, [], by simp [printStringFormatted]⟩
  | cons c l ih =>
    have hcol : (printRuneFormatted c w1).col = (printRuneFormatted c w2).col := by
      rw [col_printRuneFormatted, col_printRuneFormatted, h]
    obtain ⟨h1, d, hd1, hd2⟩ := ih (printRuneFormatted c w1) (printRuneFormatted c w2) hcol
    refine ⟨by simpa [printStringFormatted_cons] using h1, ?_⟩
    rw [printStringFormatted_cons, printStringFormatted_cons, hd1, hd2,
      output_printRuneFormatted, output_printRuneFormatted, h]
    exact ⟨(if c = ' ' then (if w2.col = 0 then [] else if w2.col > 80 then ['\n'] else [' '])
      else [c]) ++ d, by simp, by simp⟩

/-- The sleeps of a text, in order. -/
theorem sleeps_printStringFormatted (l : List Char) (w : World) :
    sleeps (printStringFormatted ⟨l⟩ w) =
      sleeps w ++
        (l.map (fun c =>
          if c = '.' then [sleepTime.sentence, sleepTime.character]
          else [sleepTime.character])).flatten := by
  induction l generalizing w with
  | nil => simp [printStringFormatted]
  | cons c l ih =>
    rw [printStringFormatted_cons, ih, sleeps_printRuneFormatted]
    simp

/-- Counting the per-character delays among the delays of a text. -/
theorem count_character_delays (l : List Char) :
    ((l.map (fun c =>
        if c = '.' then [sleepTime.sentence, sleepTime.character]
        else [sleepTime.character])).flatten).count sleepTime.character = l.length := by
  induction l with
  | nil => simp
  | cons c l ih =>
    rw [List.map_cons, List.flatten_cons, List.count_append, ih]
    by_cases hc : c = '.' <;> simp [hc, sleepTime, Millisecond] <;> omega

/-- Counting the sentence delays among the delays of a text. -/
theorem count_sentence_delays (l : List Char) :
    ((l.map (fun c =>
        if c = '.' then [sleepTime.sentence, sleepTime.character]
        else [sleepTime.character])).flatten).count sleepTime.sentence = l.count '.' := by
  induction l with
  | nil => simp
  | cons c l ih =>
    rw [List.map_cons, List.flatten_cons, List.count_append, ih]
    by_cases hc : c = '.'
    · subst hc; simp [sleepTime, Millisecond]; omega
    · have hc1 : ¬ ('.' = c) := fun e => hc e.symm
      simp [hc, sleepTime, Millisecond, List.count_cons, hc1]

/-- Adding up the delays of a text. -/
theorem sum_delays (l : List Char) :
    ((l.map (fun c =>
        if c = '.' then [sleepTime.sentence, sleepTime.character]
        else [sleepTime.character])).flatten).sum =
      30 * Millisecond * l.length + 300 * Millisecond * l.count '.' := by
  induction l with
  | nil => simp
  | cons c l ih =>
    rw [List.map_cons, List.flatten_cons, List.sum_append, ih]
    by_cases hc : c = '.'
    · subst hc; simp [sleepTime, Millisecond]; ring
    · have hc1 : ¬ ('.' = c) := fun e => hc e.symm
      simp [hc, sleepTime, Millisecond, List.count_cons, hc1]; ring

/-- Once the line has begun, a text without newline that stays within column 81 is written
as it is. -/
theorem printStringFormatted_no_wrap (l : List Char) (w : World) (h1 : 1 ≤ w.col)
    (hnl : '\n' ∉ l) (hlen : w.col + l.length ≤ 81) :
    output (printStringFormatted ⟨l⟩ w) = output w ++ l ∧
      (printStringFormatted ⟨l⟩ w).col = w.col + l.length := by
  induction l generalizing w with
  | nil => simp [printStringFormatted]
  | cons c l ih =>
    have hc : c ≠ '\n' := fun e => hnl (e ▸ List.mem_cons_self c l)
    have hl : '\n' ∉ l := fun e => hnl (List.mem_cons_of_mem c e)
    have hlen1 : w.col + ((l.length : Int) + 1) ≤ 81 := by simpa using hlen
    have h0 : w.col ≠ 0 := by omega
    have h80 : ¬ (w.col > 80) := by have := Int.natCast_nonneg l.length; omega
    have hcol : (printRuneFormatted c w).col = w.col + 1 := by
      rw [col_printRuneFormatted]; simp [hc, h0, h80]
    have hout : output (printRuneFormatted c w) = output w ++ [c] := by
      rw [output_printRuneFormatted]
      by_cases hs : c = ' '
      · simp [hs, h0, h80]
      · simp [hs]
    have ih1 := ih (printRuneFormatted c w) (by omega) hl (by omega)
    rw [printStringFormatted_cons, ih1.1, ih1.2, hout, hcol]
    refine ⟨by simp, ?_⟩
    simp only [List.length_cons, Nat.cast_add, Nat.cast_one]
    omega

/-- The length of the current line after one more character. -/
theorem currentLineLength_append_singleton (out : List Char) (d : Char) :
    currentLineLength (out ++ [d]) = if d = '\n' then 0 else currentLineLength out + 1 := by
  unfold currentLineLength
  by_cases h : d = '\n'
  · subst h; simp [List.takeWhile_cons]
  · simp [List.takeWhile_cons, h]

/-- One rune keeps the cursor equal to the length of the current output line. -/
theorem printRuneFormatted_tracks (c : Char) (w : World)
    (h : w.col = (currentLineLength (output w) : Int)) :
    (printRuneFormatted c w).col = (currentLineLength (output (printRuneFormatted c w)) : Int) := by
  rw [col_printRuneFormatted, output_printRuneFormatted]
  by_cases h2 : c = '\n'
  · subst h2; simp [currentLineLength_append_singleton]
  · by_cases h3 : c = ' '
    · subst h3
      by_cases h4 : w.col = 0
      · simp [h4]; rw [← h, h4]
      · by_cases h5 : w.col > 80
        · simp [h4, h5, currentLineLength_append_singleton]
        · simp [h4, h5, currentLineLength_append_singleton]
          omega
    · simp [h2, h3, currentLineLength_append_singleton, h]

/-- A text keeps the cursor equal to the length of the current output line. -/
theorem printStringFormatted_tracks (l : List Char) (w : World)
    (h : w.col = (currentLineLength (output w) : Int)) :
    (printStringFormatted ⟨l⟩ w).col =
      (currentLineLength (output (printStringFormatted ⟨l⟩ w)) : Int) := by
  induction l generalizing w with
  | nil => simpa [printStringFormatted] using h
  | cons c l ih =>
    rw [printStringFormatted_cons]
    exact ih _ (printRuneFormatted_tracks c w h)

/-- A sequence of calls keeps the cursor equal to the length of the current output line. -/
theorem runCalls_tracks (calls : List Call) (w : World)
    (h : w.col = (currentLineLength (output w) : Int)) :
    (runCalls calls w).col = (currentLineLength (output (runCalls calls w)) : Int) := by
  induction calls generalizing w with
  | nil => simpa [runCalls] using h
  | cons k calls ih =>
    have hk : (k.run w).col = (currentLineLength (output (k.run w)) : Int) := by
      cases k with
      | rune c => exact printRuneFormatted_tracks c w h
      | text s => obtain ⟨l⟩ := s; exact printStringFormatted_tracks l w h
    simpa [runCalls] using ih (k.run w) hk

/-- What a text adds to the output, with the properties relating it to the text. -/
theorem printStringFormatted_edits (l : List Char) (w : World) :
    ∃ d, output (printStringFormatted ⟨l⟩ w) = output w ++ d ∧
      editsAt w.col l d = true ∧ visible d = visible l ∧
      l.count '\n' ≤ d.count '\n' ∧ d.length ≤ l.length := by
  induction l generalizing w with
  | nil => exact ⟨[], by simp [printStringFormatted], by simp [editsAt], rfl, by simp, by simp⟩
  | cons c l ih =>
    obtain ⟨d, hd, he, hv, hn, hlen⟩ := ih (printRuneFormatted c w)
    rw [col_printRuneFormatted] at he
    rw [output_printRuneFormatted] at hd
    rw [printStringFormatted_cons, hd]
    by_cases h3 : c = ' '
    · subst h3
      by_cases h4 : w.col = 0
      · refine ⟨d, by simp [h4], ?_, ?_, ?_, ?_⟩
        · simp [h4] at he
          simp [editsAt, h4, he]
        · simpa [visible] using hv
        · simpa [List.count_cons] using hn
        · simp; omega
      · by_cases h5 : w.col > 80
        · refine ⟨'\n' :: d, by simp [h4, h5], ?_, ?_, ?_, ?_⟩
          · simp [h4, h5] at he
            have h5i : (80 : Int) < w.col := h5
            simp [editsAt, h5i, he]
          · simpa [visible] using hv
          · simp [List.count_cons]; omega
          · simpa using hlen
        · refine ⟨' ' :: d, by simp [h4, h5], ?_, ?_, ?_, ?_⟩
          · simp [h4, h5] at he
            simp [editsAt, columnAfter, he]
          · simpa [visible] using hv
          · simpa [List.count_cons] using hn
          · simpa using hlen
    · refine ⟨c :: d, by simp [h3], ?_, ?_, ?_, ?_⟩
      · by_cases h2 : c = '\n'
        · subst h2
          simp at he
          simp [editsAt, columnAfter, he]
        · simp [h2, h3] at he
          simp [editsAt, columnAfter, h2, he]
      · by_cases h2 : c = '\n'
        · subst h2; simpa [visible] using hv
        · simp [visible, h2, h3]; simpa [visible] using hv
      · by_cases h2 : c = '\n'
        · subst h2; simpa [List.count_cons] using hn
        · have h2s : ¬ ('\n' = c) := fun e => h2 e.symm
          simp [List.count_cons, h2] ; omega
      · simpa using hlen

/-- An arithmetic result within the range of the `int` is the value of the `int`. -/
theorem Machine_wrap_of_range (x : Int) (h1 : Machine.minInt ≤ x) (h2 : x ≤ Machine.maxInt) :
    Machine.wrap x = x := by
  unfold Machine.wrap
  unfold Machine.minInt at h1
  unfold Machine.maxInt at h2
  omega

/-- One past the largest `int` is the smallest `int`. -/
theorem Machine_wrap_maxInt_succ : Machine.wrap (Machine.maxInt + 1) = Machine.minInt := by
  decide

/-- The cursor after one rune on the machine integer, by cases on the rune and the cursor
before. -/
theorem Machine_col_printRuneFormatted (c : Char) (w : World) :
    (Machine.printRuneFormatted c w).col =
      if c = '\n' then 0
      else if c = ' ' then
        (if w.col = 0 then 0 else if w.col > 80 then 0 else Machine.wrap (w.col + 1))
      else Machine.wrap (w.col + 1) := by
  unfold Machine.printRuneFormatted
  by_cases h1 : c = '.'
  · subst h1; simp [Sleep, Print]
  · by_cases h2 : c = '\n'
    · subst h2; simp [Sleep, Print]
    · by_cases h3 : c = ' '
      · subst h3
        by_cases h4 : w.col = 0
        · simp [Sleep, h4]
        · by_cases h5 : w.col > 80 <;> simp [Sleep, Print, h4, h5]
      · simp [Sleep, Print, h1, h2, h3]

/-- The output after one rune on the machine integer, by cases on the rune and the cursor
before. -/
theorem Machine_output_printRuneFormatted (c : Char) (w : World) :
    output (Machine.printRuneFormatted c w) =
      output w ++
        (if c = ' ' then (if w.col = 0 then [] else if w.col > 80 then ['\n'] else [' '])
         else [c]) := by
  unfold Machine.printRuneFormatted
  by_cases h1 : c = '.'
  · subst h1; simp [Sleep, Print]
  · by_cases h2 : c = '\n'
    · subst h2; simp [Sleep, Print]
    · by_cases h3 : c = ' '
      · subst h3
        by_cases h4 : w.col = 0
        · simp [Sleep, h4]
        · by_cases h5 : w.col > 80 <;> simp [Sleep, Print, h4, h5]
      · simp [Sleep, Print, h1, h2, h3]

/-- Where the increment does not wrap, one rune on the machine integer is one rune on the
integer without bound. -/
theorem Machine_printRuneFormatted_eq (c : Char) (w : World)
    (h1 : Machine.minInt ≤ w.col + 1) (h2 : w.col + 1 ≤ Machine.maxInt) :
    Machine.printRuneFormatted c w = printRuneFormatted c w := by
  have hw : Machine.wrap (w.col + 1) = w.col + 1 := Machine_wrap_of_range _ h1 h2
  unfold Machine.printRuneFormatted printRuneFormatted
  simp only [Print, col_emit, hw]

/-- From a cursor that is not negative, one rune leaves a cursor that is not negative and
at most one more. -/
theorem col_printRuneFormatted_bounds (c : Char) (w : World) (h0 : 0 ≤ w.col) :
    0 ≤ (printRuneFormatted c w).col ∧ (printRuneFormatted c w).col ≤ w.col + 1 := by
  rw [col_printRuneFormatted]
  split_ifs <;> constructor <;> omega

/-- A text that cannot bring the cursor past the largest `int` is rendered on the machine
integer as on the integer without bound. -/
theorem Machine_printStringFormatted_eq (l : List Char) (w : World) (h0 : 0 ≤ w.col)
    (h : w.col + (l.length : Int) ≤ Machine.maxInt) :
    Machine.printStringFormatted ⟨l⟩ w = printStringFormatted ⟨l⟩ w := by
  induction l generalizing w with
  | nil => rfl
  | cons c l ih =>
    have hlen : w.col + ((l.length : Int) + 1) ≤ Machine.maxInt := by simpa using h
    have hnn := Int.natCast_nonneg l.length
    have hmin : Machine.minInt ≤ w.col + 1 := by unfold Machine.minInt; omega
    have hstep := Machine_printRuneFormatted_eq c w hmin (by omega)
    have hb := col_printRuneFormatted_bounds c w h0
    show Machine.printStringFormatted ⟨l⟩ (Machine.printRuneFormatted c w) =
      printStringFormatted ⟨l⟩ (printRuneFormatted c w)
    rw [hstep]
    exact ih (printRuneFormatted c w) hb.1 (by omega)

end Renderer

/-! ## Basic facts about the driver -/

section Driver

/-- The characters of a trimmed string. -/
theorem TrimSpace_data (l : List Char) :
    (TrimSpace ⟨l⟩).data = (l.dropWhile IsSpace).rdropWhile IsSpace := rfl

/-- A line of white space only is trimmed to the empty string. -/
theorem TrimSpace_blank (l : List Char) (h : ∀ c ∈ l, IsSpace c = true) :
    (TrimSpace ⟨l⟩).length = 0 := by
  have h1 : l.dropWhile IsSpace = [] := List.dropWhile_eq_nil_iff.mpr h
  show ((TrimSpace ⟨l⟩).data).length = 0
  rw [TrimSpace_data, h1]
  rfl

/-- The newline that ends a line does not show after trimming. -/
theorem TrimSpace_line (l : List Char) : TrimSpace ⟨l ++ ['\n']⟩ = TrimSpace ⟨l⟩ := by
  have hnl : IsSpace '\n' = true := by decide
  have h : (TrimSpace ⟨l ++ ['\n']⟩).data = (TrimSpace ⟨l⟩).data := by
    rw [TrimSpace_data, TrimSpace_data, List.dropWhile_append]
    by_cases he : (l.dropWhile IsSpace).isEmpty = true
    · have he1 : l.dropWhile IsSpace = [] := List.isEmpty_iff.mp he
      simp [he1, hnl, List.rdropWhile]
    · rw [if_neg he, List.rdropWhile_concat_pos _ _ _ hnl]
  exact String.ext h

/-- The result of trimming a string that has a character other than white space: it is not
empty, it neither begins nor ends with white space, and the string is the result between
two runs of white space. -/
theorem TrimSpace_visible (l : List Char) (hvis : ∃ c ∈ l, IsSpace c = false) :
    (TrimSpace ⟨l⟩).data ≠ [] ∧
      (∀ c, (TrimSpace ⟨l⟩).data.head? = some c → IsSpace c = false) ∧
      (∀ c, (TrimSpace ⟨l⟩).data.getLast? = some c → IsSpace c = false) ∧
      ∃ pre post, l = pre ++ (TrimSpace ⟨l⟩).data ++ post ∧
        (∀ c ∈ pre, IsSpace c = true) ∧ (∀ c ∈ post, IsSpace c = true) := by
  rw [TrimSpace_data]
  have hm : l.dropWhile IsSpace ≠ [] := by
    intro h0
    obtain ⟨c, hc, hs⟩ := hvis
    have := List.dropWhile_eq_nil_iff.mp h0 c hc
    simp [hs] at this
  have hhead : IsSpace ((l.dropWhile IsSpace).head hm) = false :=
    List.head_dropWhile_not IsSpace l hm
  have ht : (l.dropWhile IsSpace).rdropWhile IsSpace ≠ [] := by
    intro h0
    have := List.rdropWhile_eq_nil_iff.mp h0 _ (List.head_mem hm)
    simp [hhead] at this
  have hsplit : l.dropWhile IsSpace =
      (l.dropWhile IsSpace).rdropWhile IsSpace ++
        ((l.dropWhile IsSpace).reverse.takeWhile IsSpace).reverse := by
    have h1 := List.takeWhile_append_dropWhile IsSpace (l.dropWhile IsSpace).reverse
    have h2 := congrArg List.reverse h1
    rw [List.reverse_append, List.reverse_reverse] at h2
    exact h2.symm
  refine ⟨ht, ?_, ?_, l.takeWhile IsSpace,
    ((l.dropWhile IsSpace).reverse.takeWhile IsSpace).reverse, ?_, ?_, ?_⟩
  · intro c hc
    have h1 : (l.dropWhile IsSpace).head? = some c := by
      rw [hsplit, List.head?_append_of_ne_nil _ ht]; exact hc
    have h2 : (l.dropWhile IsSpace).head? = some ((l.dropWhile IsSpace).head hm) :=
      List.head?_eq_head hm
    rw [h1] at h2
    rw [Option.some.inj h2]; exact hhead
  · intro c hc
    have h1 := List.rdropWhile_last_not IsSpace (l.dropWhile IsSpace) ht
    rw [List.getLast?_eq_getLast _ ht] at hc
    rw [← Option.some.inj hc]
    simpa using h1
  · rw [List.append_assoc, ← hsplit, List.takeWhile_append_dropWhile]
  · intro c hc; exact List.mem_takeWhile_imp hc
  · intro c hc; exact List.mem_takeWhile_imp (List.mem_reverse.mp hc)

/-- The format `%v` followed by a space gives the operand followed by a space. -/
theorem Sprintf_prompt (a : String) : Sprintf "%v " [a] = a ++ " " := by
  apply String.ext
  simp [Sprintf, sprintfLoop, sprintfExtra]

/-- The format `%v` gives the operand. -/
theorem Sprintf_part (a : String) : Sprintf "%v" [a] = a := by
  apply String.ext
  simp [Sprintf, sprintfLoop, sprintfExtra]

/-- The format of `chat` gives the operand between the two fixed texts. -/
theorem Sprintf_chat (a : String) :
    Sprintf "The user wrote: %v\n\nWrite the next short paragraph." [a] =
      "The user wrote: " ++ a ++ "\n\nWrite the next short paragraph." := by
  apply String.ext
  simp [Sprintf, sprintfLoop, sprintfExtra]

/-- Reading a line that is followed by its newline. -/
theorem ReadString_line (line rest : List Char) (h : '\n' ∉ line) :
    ReadString '\n' (line ++ '\n' :: rest) = some (line ++ ['\n'], rest) := by
  induction line with
  | nil => simp [ReadString]
  | cons c l ih =>
    have hc : c ≠ '\n' := fun e => h (e ▸ List.mem_cons_self c l)
    have hl : '\n' ∉ l := fun e => h (List.mem_cons_of_mem c e)
    simp [ReadString, hc, ih hl]

/-- One rune neither reads standard input nor depends on it. -/
theorem printRuneFormatted_stdin (c : Char) (w : World) (x : List Char) :
    printRuneFormatted c ⟨w.col, w.events, x⟩ =
      ⟨(printRuneFormatted c w).col, (printRuneFormatted c w).events, x⟩ := by
  unfold printRuneFormatted
  simp only [Print, Sleep, World.emit, World.setCol]
  split_ifs <;> rfl

/-- A text neither reads standard input nor depends on it. -/
theorem printStringFormatted_stdin (l : List Char) (w : World) (x : List Char) :
    printStringFormatted ⟨l⟩ ⟨w.col, w.events, x⟩ =
      ⟨(printStringFormatted ⟨l⟩ w).col, (printStringFormatted ⟨l⟩ w).events, x⟩ := by
  induction l generalizing w with
  | nil => rfl
  | cons c l ih =>
    rw [printStringFormatted_cons, printStringFormatted_cons, printRuneFormatted_stdin]
    exact ih (printRuneFormatted c w)

/-- A text leaves standard input as it is. -/
theorem stdin_printStringFormatted (s : String) (w : World) :
    (printStringFormatted s w).stdin = w.stdin := by
  obtain ⟨l⟩ := s
  have h := printStringFormatted_stdin l w w.stdin
  have hw : (⟨w.col, w.events, w.stdin⟩ : World) = w := rfl
  rw [hw] at h
  rw [h]

/-- Rendering a text several times neither reads standard input nor depends on it. -/
theorem iterate_printStringFormatted_stdin (s : String) (n : Nat) (w : World) (x : List Char) :
    (printStringFormatted s)^[n] ⟨w.col, w.events, x⟩ =
      ⟨((printStringFormatted s)^[n] w).col, ((printStringFormatted s)^[n] w).events, x⟩ := by
  obtain ⟨l⟩ := s
  induction n generalizing w with
  | zero => rfl
  | succ n ih =>
    rw [Function.iterate_succ_apply, Function.iterate_succ_apply, printStringFormatted_stdin]
    exact ih (printStringFormatted ⟨l⟩ w)

/-- The loop of `askUser` on an input that begins with blank lines followed by a line with
a visible character, given more iterations than the input has characters. -/
theorem askUserLoop_first_visible_line (env : Env) (prompt : String) (blanks : List (List Char))
    (line rest : List Char) (fuel : Nat) (w : World)
    (hfuel : w.stdin.length < fuel)
    (hstdin : w.stdin = (blanks.map (fun b => b ++ ['\n'])).flatten ++ (line ++ '\n' :: rest))
    (hblank : ∀ b ∈ blanks, ∀ c ∈ b, IsSpace c = true ∧ c ≠ '\n')
    (hline : '\n' ∉ line) (hvis : ∃ c ∈ line, IsSpace c = false) :
    askUserLoop env prompt fuel w =
      Result.done (TrimSpace ⟨line⟩)
        ⟨((printStringFormatted (prompt ++ " "))^[blanks.length + 1] w).col,
          ((printStringFormatted (prompt ++ " "))^[blanks.length + 1] w).events ++
            [Event.answer (TrimSpace ⟨line⟩)],
          rest.drop (env.readAhead rest)⟩ := by
  induction blanks generalizing w fuel with
  | nil =>
    cases fuel with
    | zero => omega
    | succ fuel =>
      have hs : (printStringFormatted (prompt ++ " ") w).stdin = line ++ '\n' :: rest := by
        rw [stdin_printStringFormatted, hstdin]; simp
      have hne : ¬ ((TrimSpace ⟨line⟩).length = 0) := by
        intro h0
        exact (TrimSpace_visible line hvis).1 (List.length_eq_zero.mp h0)
      simp only [askUserLoop, Sprintf_prompt, hs, ReadString_line line rest hline,
        TrimSpace_line, if_neg hne]
      rfl
  | cons b blanks ih =>
    cases fuel with
    | zero => omega
    | succ fuel =>
      have hb := hblank b (List.mem_cons_self b blanks)
      have hbnl : '\n' ∉ b := fun e => (hb '\n' e).2 rfl
      have hs : (printStringFormatted (prompt ++ " ") w).stdin =
          b ++ '\n' :: ((blanks.map (fun b => b ++ ['\n'])).flatten ++ (line ++ '\n' :: rest)) := by
        rw [stdin_printStringFormatted, hstdin]; simp
      have he : (TrimSpace ⟨b⟩).length = 0 := TrimSpace_blank b (fun c hc => (hb c hc).1)
      have hlen : ((blanks.map (fun b => b ++ ['\n'])).flatten ++
          (line ++ '\n' :: rest)).length < fuel := by
        have h1 : w.stdin.length = b.length + 1 +
            ((blanks.map (fun b => b ++ ['\n'])).flatten ++ (line ++ '\n' :: rest)).length := by
          rw [hstdin]; simp; omega
        omega
      simp only [askUserLoop, Sprintf_prompt, hs, ReadString_line b _ hbnl,
        TrimSpace_line, if_pos he]
      rw [ih fuel _ hlen rfl (fun b1 hb1 => hblank b1 (List.mem_cons_of_mem b hb1))]
      rw [iterate_printStringFormatted_stdin]
      rfl

/-- One rune sends nothing to the model and returns no answer. -/
theorem log_printRuneFormatted (c : Char) (w : World) :
    sentTexts (printRuneFormatted c w) = sentTexts w ∧
      answers (printRuneFormatted c w) = answers w := by
  unfold printRuneFormatted
  simp only [Print, Sleep, World.emit, World.setCol, sentTexts, answers]
  split_ifs <;> simp [Event.sentText, Event.answered]

/-- A text sends nothing to the model and returns no answer. -/
theorem log_printStringFormatted (s : String) (w : World) :
    sentTexts (printStringFormatted s w) = sentTexts w ∧
      answers (printStringFormatted s w) = answers w := by
  obtain ⟨l⟩ := s
  induction l generalizing w with
  | nil => exact ⟨rfl, rfl⟩
  | cons c l ih =>
    rw [printStringFormatted_cons, (ih _).1, (ih _).2]
    exact log_printRuneFormatted c w

/-- The loop of `askUser` sends nothing to the model; the answer it returns, if it returns,
is the one answer it adds. -/
theorem log_askUserLoop (env : Env) (prompt : String) (fuel : Nat) (w : World) :
    sentTexts (askUserLoop env prompt fuel w).world = sentTexts w ∧
      answers (askUserLoop env prompt fuel w).world =
        answers w ++ (askUserLoop env prompt fuel w).returned := by
  induction fuel generalizing w with
  | zero => simp [askUserLoop, Result.world, Result.returned]
  | succ fuel ih =>
    have hp := log_printStringFormatted (Sprintf "%v " [prompt]) w
    simp only [askUserLoop]
    cases hr : ReadString '\n' (printStringFormatted (Sprintf "%v " [prompt]) w).stdin with
    | none => simpa [Result.world, Result.returned] using hp
    | some lr =>
      obtain ⟨line, rest⟩ := lr
      simp only []
      split_ifs with hlen
      · have h := ih ⟨(printStringFormatted (Sprintf "%v " [prompt]) w).col,
          (printStringFormatted (Sprintf "%v " [prompt]) w).events, rest⟩
        rw [h.1, h.2]
        exact ⟨hp.1, by rw [← hp.2]; rfl⟩
      · simp only [Result.world, Result.returned]
        refine ⟨?_, ?_⟩
        · rw [← hp.1]; simp [sentTexts, World.emit, Event.sentText]
        · rw [← hp.2]; simp [answers, World.emit, Event.answered]

/-- A response piece sends nothing to the model and returns no answer. -/
theorem log_streamPartialResponse (parts : List String) (w : World) :
    sentTexts (streamPartialResponse parts w) = sentTexts w ∧
      answers (streamPartialResponse parts w) = answers w := by
  unfold streamPartialResponse
  induction parts generalizing w with
  | nil => exact ⟨rfl, rfl⟩
  | cons part parts ih =>
    rw [List.foldl_cons, (ih _).1, (ih _).2]
    exact log_printStringFormatted _ w

/-- Printing the candidates sends nothing to the model and returns no answer. -/
theorem log_streamCandidates (candidates : List (Option (List String))) (w : World) :
    sentTexts (streamCandidates candidates w).world = sentTexts w ∧
      answers (streamCandidates candidates w).world = answers w := by
  induction candidates generalizing w with
  | nil => exact ⟨rfl, rfl⟩
  | cons cand candidates ih =>
    cases cand with
    | none => exact ⟨rfl, rfl⟩
    | some parts =>
      simp only [streamCandidates]
      rw [(ih _).1, (ih _).2]
      exact log_streamPartialResponse parts w

/-- Printing the stream sends nothing to the model and returns no answer. -/
theorem log_consumeStream (items : List StreamItem) (w : World) :
    sentTexts (consumeStream items w).world = sentTexts w ∧
      answers (consumeStream items w).world = answers w := by
  induction items generalizing w with
  | nil => exact log_printRuneFormatted '\n' w
  | cons item items ih =>
    cases item with
    | err =>
      simp only [consumeStream, Result.world]
      exact log_printStringFormatted _ w
    | resp candidates =>
      have hc := log_streamCandidates candidates w
      simp only [consumeStream]
      cases hsc : streamCandidates candidates w with
      | done u w1 =>
        rw [hsc] at hc
        simp only [Result.world] at hc
        dsimp only
        rw [(ih _).1, (ih _).2]
        exact hc
      | exit code w1 =>
        rw [hsc] at hc
        exact hc
      | running w1 =>
        rw [hsc] at hc
        exact hc

/-- The function `sendAndPrintResponse` sends its text to the model, once, and returns no
answer. -/
theorem log_sendAndPrintResponse (env : Env) (text : String) (w : World) :
    sentTexts (sendAndPrintResponse env text w).world = sentTexts w ++ [text] ∧
      answers (sendAndPrintResponse env text w).world = answers w := by
  unfold sendAndPrintResponse
  simp only []
  rw [(log_consumeStream _ _).1, (log_consumeStream _ _).2,
    (log_printRuneFormatted _ _).1, (log_printRuneFormatted _ _).2,
    (log_printRuneFormatted _ _).1, (log_printRuneFormatted _ _).2]
  exact ⟨by simp [sentTexts, World.emit, Event.sentText],
    by simp [answers, World.emit, Event.answered]⟩

/-- The loop of `chat` sends, for each answer it is given, the template around that answer,
in order. -/
theorem log_chat (env : Env) (fuel : Nat) (w : World) :
    ∃ later, answers (chat env fuel w).world = answers w ++ later ∧
      sentTexts (chat env fuel w).world =
        sentTexts w ++
          later.map (fun ai => "The user wrote: " ++ ai ++ "\n\nWrite the next short paragraph.") := by
  induction fuel generalizing w with
  | zero => exact ⟨[], by simp [chat, Result.world], by simp [chat, Result.world]⟩
  | succ fuel ih =>
    have hpr : sentTexts (Print "\n" w) = sentTexts w ∧ answers (Print "\n" w) = answers w :=
      ⟨by simp [Print, sentTexts, World.emit, Event.sentText],
        by simp [Print, answers, World.emit, Event.answered]⟩
    have ha := log_askUserLoop env ">>" ((Print "\n" w).stdin.length + 1) (Print "\n" w)
    simp only [chat, askUser]
    cases hask : askUserLoop env ">>" ((Print "\n" w).stdin.length + 1) (Print "\n" w) with
    | exit code w2 =>
      rw [hask] at ha
      simp only [Result.world, Result.returned] at ha
      refine ⟨[], ?_, ?_⟩
      · show answers w2 = _
        rw [ha.2, hpr.2]
      · show sentTexts w2 = _
        rw [ha.1, hpr.1]; simp
    | running w2 =>
      rw [hask] at ha
      simp only [Result.world, Result.returned] at ha
      refine ⟨[], ?_, ?_⟩
      · show answers w2 = _
        rw [ha.2, hpr.2]
      · show sentTexts w2 = _
        rw [ha.1, hpr.1]; simp
    | done action w2 =>
      rw [hask] at ha
      simp only [Result.world, Result.returned] at ha
      have hsend := log_sendAndPrintResponse env
        (Sprintf "The user wrote: %v\n\nWrite the next short paragraph." [action]) w2
      rw [Sprintf_chat] at hsend
      simp only [Sprintf_chat]
      cases hs : sendAndPrintResponse env
          ("The user wrote: " ++ action ++ "\n\nWrite the next short paragraph.") w2 with
      | exit code w3 =>
        rw [hs] at hsend
        simp only [Result.world] at hsend
        refine ⟨[action], ?_, ?_⟩
        · show answers w3 = _
          rw [hsend.2, ha.2, hpr.2]
        · show sentTexts w3 = _
          rw [hsend.1, ha.1, hpr.1]; simp
      | running w3 =>
        rw [hs] at hsend
        simp only [Result.world] at hsend
        refine ⟨[action], ?_, ?_⟩
        · show answers w3 = _
          rw [hsend.2, ha.2, hpr.2]
        · show sentTexts w3 = _
          rw [hsend.1, ha.1, hpr.1]; simp
      | done u w3 =>
        rw [hs] at hsend
        simp only [Result.world] at hsend
        obtain ⟨later, h1, h2⟩ := ih w3
        refine ⟨action :: later, ?_, ?_⟩
        · show answers (chat env fuel w3).world = _
          rw [h1, hsend.2, ha.2, hpr.2]; simp
        · show sentTexts (chat env fuel w3).world = _
          rw [h2, hsend.1, ha.1, hpr.1]; simp

/-- What `ReadString` leaves unread is shorter than what it was given. -/
theorem ReadString_length (delim : Char) (input line rest : List Char)
    (h : ReadString delim input = some (line, rest)) : rest.length < input.length := by
  induction input generalizing line with
  | nil => simp [ReadString] at h
  | cons c l ih =>
    unfold ReadString at h
    by_cases hc : c = delim
    · simp [hc] at h
      rw [← h.2]; simp
    · simp only [hc, if_false] at h
      cases hr : ReadString delim l with
      | none => simp [hr] at h
      | some lr =>
        obtain ⟨line1, rest1⟩ := lr
        simp [hr] at h
        have := ih line1 (by rw [hr, h.2])
        simp; omega

/-- With more iterations than the input has characters, the loop of `askUser` ends: it
returns or the process exits. -/
theorem askUserLoop_ends (env : Env) (prompt : String) (fuel : Nat) (w : World)
    (hfuel : w.stdin.length < fuel) (w1 : World) :
    askUserLoop env prompt fuel w ≠ Result.running w1 := by
  induction fuel generalizing w with
  | zero => omega
  | succ fuel ih =>
    simp only [askUserLoop]
    cases hr : ReadString '\n' (printStringFormatted (Sprintf "%v " [prompt]) w).stdin with
    | none => simp
    | some lr =>
      obtain ⟨line, rest⟩ := lr
      have hlen := ReadString_length _ _ _ _ hr
      rw [stdin_printStringFormatted] at hlen
      dsimp only
      split_ifs with h0
      · exact ih _ (by show rest.length < fuel; omega)
      · simp

/-- The function `askUser` always ends: it returns or the process exits. -/
theorem askUser_ends (env : Env) (prompt : String) (w w1 : World) :
    askUser env prompt w ≠ Result.running w1 :=
  askUserLoop_ends env prompt (w.stdin.length + 1) w (Nat.lt_succ_self _) w1

/-- One rune leaves standard input as it is. -/
theorem stdin_printRuneFormatted (c : Char) (w : World) :
    (printRuneFormatted c w).stdin = w.stdin :=
  stdin_printStringFormatted ⟨[c]⟩ w

/-- A response piece leaves standard input as it is. -/
theorem stdin_streamPartialResponse (parts : List String) (w : World) :
    (streamPartialResponse parts w).stdin = w.stdin := by
  unfold streamPartialResponse
  induction parts generalizing w with
  | nil => rfl
  | cons part parts ih =>
    rw [List.foldl_cons, ih, stdin_printStringFormatted]

/-- Candidates that all have a `Content` are printed, and the loop over them ends. -/
theorem streamCandidates_returns (candidates : List (Option (List String))) (w : World)
    (h : candidates.all Option.isSome = true) :
    ∃ w1, streamCandidates candidates w = Result.done () w1 ∧ w1.stdin = w.stdin := by
  induction candidates generalizing w with
  | nil => exact ⟨w, rfl, rfl⟩
  | cons cand candidates ih =>
    cases cand with
    | none => simp at h
    | some parts =>
      obtain ⟨w1, h1, h2⟩ := ih (streamPartialResponse parts w) (by simpa using h)
      exact ⟨w1, by simpa [streamCandidates] using h1,
        by rw [h2, stdin_streamPartialResponse]⟩

/-- A stream of printable items is printed to its end. -/
theorem consumeStream_returns (items : List StreamItem) (w : World)
    (h : ∀ item ∈ items, item.printable = true) :
    ∃ w1, consumeStream items w = Result.done () w1 ∧ w1.stdin = w.stdin := by
  induction items generalizing w with
  | nil => exact ⟨printRuneFormatted '\n' w, rfl, stdin_printRuneFormatted '\n' w⟩
  | cons item items ih =>
    have hitem := h item (List.mem_cons_self item items)
    cases item with
    | err => simp [StreamItem.printable] at hitem
    | resp candidates =>
      obtain ⟨w1, h1, h2⟩ := streamCandidates_returns candidates w
        (by simpa [StreamItem.printable] using hitem)
      obtain ⟨w2, h3, h4⟩ := ih w1 (fun it hit => h it (List.mem_cons_of_mem _ hit))
      refine ⟨w2, ?_, by rw [h4, h2]⟩
      simp only [consumeStream, h1]
      exact h3

/-- With a model whose streams are printable, `sendAndPrintResponse` sends its text and
returns. -/
theorem sendAndPrintResponse_returns (env : Env) (text : String) (w : World)
    (hreply : ∀ msgs, ∀ item ∈ env.reply msgs, item.printable = true) :
    ∃ w1, sendAndPrintResponse env text w = Result.done () w1 ∧ w1.stdin = w.stdin ∧
      sentTexts w1 = sentTexts w ++ [text] ∧ answers w1 = answers w := by
  have hlog := log_sendAndPrintResponse env text w
  obtain ⟨w1, h1, h2⟩ := consumeStream_returns
    (env.reply (sentTexts (w.emit (Event.send text))))
    (printRuneFormatted '\n' (printRuneFormatted '\n' (w.emit (Event.send text))))
    (hreply _)
  have hdef : sendAndPrintResponse env text w = Result.done () w1 := h1
  rw [hdef] at hlog
  refine ⟨w1, hdef, ?_, hlog.1, hlog.2⟩
  rw [h2, stdin_printRuneFormatted, stdin_printRuneFormatted]
  rfl

/-- On an input that begins with a line with a visible character, `askUser` returns that
line trimmed and leaves what follows the line. -/
theorem askUser_reads_line (env : Env) (prompt : String) (w : World) (line rest : List Char)
    (hstdin : w.stdin = line ++ '\n' :: rest) (hline : '\n' ∉ line)
    (hvis : ∃ c ∈ line, IsSpace c = false) (hbuf : ∀ l, env.readAhead l = 0) :
    ∃ w1, askUser env prompt w = Result.done (TrimSpace ⟨line⟩) w1 ∧ w1.stdin = rest ∧
      answers w1 = answers w ++ [TrimSpace ⟨line⟩] ∧ sentTexts w1 = sentTexts w := by
  have h := askUserLoop_first_visible_line env prompt [] line rest (w.stdin.length + 1) w
    (Nat.lt_succ_self _) (by simpa using hstdin) (by simp) hline hvis
  have hlog := log_askUserLoop env prompt (w.stdin.length + 1) w
  rw [h] at hlog
  refine ⟨_, h, ?_, hlog.2, hlog.1⟩
  show rest.drop (env.readAhead rest) = rest
  rw [hbuf]; rfl

/-- With a model whose streams are printable and an input of lines with a visible character
each, one iteration of `chat` for each line reads the lines and sends the template around
each. -/
theorem chat_reads_lines (env : Env)
    (hreply : ∀ msgs, ∀ item ∈ env.reply msgs, item.printable = true)
    (hbuf : ∀ l, env.readAhead l = 0) (lines : List (List Char)) (rest : List Char) (w : World)
    (hstdin : w.stdin = (lines.map (fun l => l ++ ['\n'])).flatten ++ rest)
    (hlines : ∀ l ∈ lines, '\n' ∉ l ∧ ∃ c ∈ l, IsSpace c = false) :
    ∃ w1, chat env lines.length w = Result.running w1 ∧
      answers w1 = answers w ++ lines.map (fun l => TrimSpace ⟨l⟩) ∧
      sentTexts w1 = sentTexts w ++
        (lines.map (fun l => TrimSpace ⟨l⟩)).map
          (fun ai => "The user wrote: " ++ ai ++ "\n\nWrite the next short paragraph.") ∧
      w1.stdin = rest := by
  induction lines generalizing w with
  | nil => exact ⟨w, rfl, by simp, by simp, by simpa using hstdin⟩
  | cons line lines ih =>
    have hl := hlines line (List.mem_cons_self line lines)
    have hpr : sentTexts (Print "\n" w) = sentTexts w ∧ answers (Print "\n" w) = answers w :=
      ⟨by simp [Print, sentTexts, World.emit, Event.sentText],
        by simp [Print, answers, World.emit, Event.answered]⟩
    obtain ⟨w2, ha, hs2, han2, hse2⟩ := askUser_reads_line env ">>" (Print "\n" w) line
      ((lines.map (fun l => l ++ ['\n'])).flatten ++ rest)
      (by show w.stdin = _; rw [hstdin]; simp) hl.1 hl.2 hbuf
    obtain ⟨w3, hsend, hs3, hse3, han3⟩ := sendAndPrintResponse_returns env
      ("The user wrote: " ++ TrimSpace ⟨line⟩ ++ "\n\nWrite the next short paragraph.") w2
      hreply
    obtain ⟨w4, hc, han4, hse4, hs4⟩ := ih w3 (by rw [hs3, hs2])
      (fun l hl1 => hlines l (List.mem_cons_of_mem line hl1))
    refine ⟨w4, ?_, ?_, ?_, hs4⟩
    · show chat env (lines.length + 1) w = Result.running w4
      simp only [chat, ha, Sprintf_chat, hsend]
      exact hc
    · rw [han4, han3, han2, hpr.2]; simp
    · rw [hse4, hse3, hse2, hpr.1]; simp

/-- In every run of `main` the texts passed to the model so far are the first answer of
`askUser` as it is, followed by the template around each later answer. -/
theorem log_main (env : Env) (fuel : Nat) (stdin : List Char) :
    sentTexts (main env fuel (World.start stdin)).world =
      expectedTexts (answers (main env fuel (World.start stdin)).world) := by
  have hstart : sentTexts (printRuneFormatted '\n' (World.start stdin)) = [] ∧
      answers (printRuneFormatted '\n' (World.start stdin)) = [] := by
    have h := log_printRuneFormatted '\n' (World.start stdin)
    exact ⟨h.1, h.2⟩
  have ha := log_askUserLoop env "What do you want to dream about?"
    ((printRuneFormatted '\n' (World.start stdin)).stdin.length + 1)
    (printRuneFormatted '\n' (World.start stdin))
  unfold main askUser
  dsimp only
  cases hask : askUserLoop env "What do you want to dream about?"
      ((printRuneFormatted '\n' (World.start stdin)).stdin.length + 1)
      (printRuneFormatted '\n' (World.start stdin)) with
  | exit code w2 =>
    rw [hask] at ha
    simp only [Result.world, Result.returned] at ha
    show sentTexts w2 = expectedTexts (answers w2)
    rw [ha.1, ha.2, hstart.1, hstart.2]; rfl
  | running w2 =>
    rw [hask] at ha
    simp only [Result.world, Result.returned] at ha
    show sentTexts w2 = expectedTexts (answers w2)
    rw [ha.1, ha.2, hstart.1, hstart.2]; rfl
  | done topic w2 =>
    rw [hask] at ha
    simp only [Result.world, Result.returned] at ha
    have hsend := log_sendAndPrintResponse env topic w2
    dsimp only
    cases hs : sendAndPrintResponse env topic w2 with
    | exit code w3 =>
      rw [hs] at hsend
      simp only [Result.world] at hsend
      show sentTexts w3 = expectedTexts (answers w3)
      rw [hsend.1, hsend.2, ha.1, ha.2, hstart.1, hstart.2]; rfl
    | running w3 =>
      rw [hs] at hsend
      simp only [Result.world] at hsend
      show sentTexts w3 = expectedTexts (answers w3)
      rw [hsend.1, hsend.2, ha.1, ha.2, hstart.1, hstart.2]; rfl
    | done u w3 =>
      rw [hs] at hsend
      simp only [Result.world] at hsend
      obtain ⟨later, h1, h2⟩ := log_chat env fuel w3
      show sentTexts (chat env fuel w3).world = expectedTexts (answers (chat env fuel w3).world)
      rw [h1, h2, hsend.1, hsend.2, ha.1, ha.2, hstart.1, hstart.2]
      rfl

/-- With a model whose streams are printable and an input of lines with a visible character
each, `main` reads the first line and sends it, and its loop goes on as `chat_reads_lines`
says. -/
theorem main_reads_lines (env : Env)
    (hreply : ∀ msgs, ∀ item ∈ env.reply msgs, item.printable = true)
    (hbuf : ∀ l, env.readAhead l = 0) (line : List Char) (later : List (List Char))
    (rest : List Char) (hline : '\n' ∉ line ∧ ∃ c ∈ line, IsSpace c = false)
    (hlater : ∀ l ∈ later, '\n' ∉ l ∧ ∃ c ∈ l, IsSpace c = false) :
    ∃ w, main env later.length
        (World.start (((line :: later).map (fun l => l ++ ['\n'])).flatten ++ rest)) =
          Result.running w ∧
      answers w = (line :: later).map (fun l => TrimSpace ⟨l⟩) ∧
      sentTexts w = expectedTexts ((line :: later).map (fun l => TrimSpace ⟨l⟩)) ∧
      w.stdin = rest := by
  have hstart := log_printRuneFormatted '\n'
    (World.start (((line :: later).map (fun l => l ++ ['\n'])).flatten ++ rest))
  have hstdin := stdin_printRuneFormatted '\n'
    (World.start (((line :: later).map (fun l => l ++ ['\n'])).flatten ++ rest))
  obtain ⟨w2, ha, hs2, han2, hse2⟩ := askUser_reads_line env "What do you want to dream about?"
    (printRuneFormatted '\n'
      (World.start (((line :: later).map (fun l => l ++ ['\n'])).flatten ++ rest)))
    line ((later.map (fun l => l ++ ['\n'])).flatten ++ rest)
    (by rw [hstdin]; simp [World.start]) hline.1 hline.2 hbuf
  obtain ⟨w3, hsend, hs3, hse3, han3⟩ :=
    sendAndPrintResponse_returns env (TrimSpace ⟨line⟩) w2 hreply
  obtain ⟨w4, hc, han4, hse4, hs4⟩ := chat_reads_lines env hreply hbuf later rest w3
    (by rw [hs3, hs2]) hlater
  refine ⟨w4, ?_, ?_, ?_, hs4⟩
  · unfold main
    dsimp only
    rw [ha]
    dsimp only
    rw [hsend]
    exact hc
  · rw [han4, han3, han2, hstart.2]; rfl
  · rw [hse4, hse3, hse2, hstart.1]; rfl

end Driver

/-! ## The renderer claims -/

/-- C1, as amended: at every cursor `c` from 0 to the largest `int` and for every character,
`printRuneFormatted` writes what the reference step of the specification writes; it leaves
the cursor the reference step leaves whenever that cursor is at most the largest `int`, and
otherwise (the cursor was the largest `int` and the step advances it) `col++` wraps and
leaves the smallest `int`. -/
theorem Machine_printRuneFormatted_referenceStep (c : Nat) (ch : Char) (w : World)
    (hc : w.col = (c : Int)) (hint : (c : Int) ≤ Machine.maxInt) :
    output (Machine.printRuneFormatted ch w) = output w ++ (referenceStep c ch).1 ∧
      (((referenceStep c ch).2 : Int) ≤ Machine.maxInt →
        (Machine.printRuneFormatted ch w).col = ((referenceStep c ch).2 : Int)) ∧
      (Machine.maxInt < ((referenceStep c ch).2 : Int) →
        (Machine.printRuneFormatted ch w).col = Machine.minInt) := by
  have hwrap : ((c : Int) + 1 ≤ Machine.maxInt → Machine.wrap ((c : Int) + 1) = (c : Int) + 1) ∧
      (Machine.maxInt < (c : Int) + 1 → Machine.wrap ((c : Int) + 1) = Machine.minInt) := by
    unfold Machine.maxInt at hint
    unfold Machine.wrap Machine.maxInt Machine.minInt
    constructor <;> intro h <;> omega
  have hmax : Machine.maxInt = 9223372036854775807 := rfl
  rw [Machine_output_printRuneFormatted, Machine_col_printRuneFormatted, hc]
  unfold referenceStep
  by_cases h1 : ch = '.'
  · subst h1
    simpa using hwrap
  · by_cases h2 : ch = '\n'
    · subst h2
      simp [hmax]
    · by_cases h3 : ch = ' '
      · subst h3
        by_cases h4 : c = 0
        · subst h4
          simp [hmax]
        · by_cases h5 : c > 80
          · have h6 : (80 : Int) < (c : Int) := by exact_mod_cast h5
            simp [h4, h5, h6, hmax]
          · have h6 : ¬ ((80 : Int) < (c : Int)) := by
              intro h; exact h5 (by exact_mod_cast h)
            simpa [h4, h5, h6] using hwrap
      · simpa [h1, h2, h3] using hwrap

/-- Witness of C1 as amended: the soft wrap, a space arriving at cursor 81. -/
theorem Machine_printRuneFormatted_referenceStep_witness :
    (World.mk 81 [] []).col = ((81 : Nat) : Int) ∧ ((81 : Nat) : Int) ≤ Machine.maxInt ∧
      output (Machine.printRuneFormatted ' ' (World.mk 81 [] [])) = ['\n'] ∧
      (Machine.printRuneFormatted ' ' (World.mk 81 [] [])).col = 0 :=
  ⟨rfl, by decide,
    (Machine_printRuneFormatted_referenceStep 81 ' ' (World.mk 81 [] []) rfl (by decide)).1,
    (Machine_printRuneFormatted_referenceStep 81 ' ' (World.mk 81 [] []) rfl
      (by decide)).2.1 (by decide)⟩

/-- Counterexample to C1 as stated: at the cursor 9223372036854775807, the largest `int`,
the letter x is written as the reference step says, but `col++` wraps: the cursor becomes
-9223372036854775808, where the reference step gives 9223372036854775808. -/
theorem increment_wraps_at_largest_int :
    (World.mk 9223372036854775807 [] []).col = ((9223372036854775807 : Nat) : Int) ∧
      output (Machine.printRuneFormatted 'x' (World.mk 9223372036854775807 [] [])) = ['x'] ∧
      (Machine.printRuneFormatted 'x' (World.mk 9223372036854775807 [] [])).col =
        -9223372036854775808 ∧
      (referenceStep 9223372036854775807 'x').2 = 9223372036854775808 ∧
      (Machine.printRuneFormatted 'x' (World.mk 9223372036854775807 [] [])).col <
        (((referenceStep 9223372036854775807 'x').2 : Nat) : Int) := by
  decide

/-- C2: a run of `n ≥ 1` characters, none a space or a newline, followed by one space and
rendered from cursor 0: when `n > 80` a newline is written in place of the space and the
cursor ends at 0; when `n ≤ 80` the space is written and the cursor ends at `n + 1`; the
cursor ends at 0 exactly when `n > 80`. -/
theorem soft_wrap_threshold (r : String) (w : World) (hw : w.col = 0) (hn : 1 ≤ r.length)
    (hr : ∀ c ∈ r.data, c ≠ ' ' ∧ c ≠ '\n') :
    (80 < r.length →
        output (printStringFormatted (r ++ " ") w) = output w ++ r.data ++ ['\n'] ∧
          (printStringFormatted (r ++ " ") w).col = 0) ∧
      (r.length ≤ 80 →
        output (printStringFormatted (r ++ " ") w) = output w ++ r.data ++ [' '] ∧
          (printStringFormatted (r ++ " ") w).col = (r.length : Int) + 1) ∧
      ((printStringFormatted (r ++ " ") w).col = 0 ↔ 80 < r.length) := by
  obtain ⟨l⟩ := r
  have hrun := printStringFormatted_run l w hr
  have hlen : (String.mk l).length = l.length := rfl
  have hstep : printStringFormatted (String.mk l ++ " ") w =
      printRuneFormatted ' ' (printStringFormatted ⟨l⟩ w) := by
    rw [printStringFormatted_append]; rfl
  have hcol : (printStringFormatted ⟨l⟩ w).col = (l.length : Int) := by
    rw [hrun.2, hw]; simp
  have hpos : (1 : Int) ≤ (l.length : Int) := by
    have : 1 ≤ l.length := hn
    exact_mod_cast this
  rw [hstep, output_printRuneFormatted, col_printRuneFormatted, hcol, hrun.1, hlen]
  have h0 : ¬ ((l.length : Int) = 0) := by omega
  by_cases h80 : 80 < l.length
  · have h80i : (l.length : Int) > 80 := by exact_mod_cast h80
    simp [h0, h80, h80i]
  · have h80i : ¬ ((l.length : Int) > 80) := by
      intro h; exact h80 (by exact_mod_cast h)
    have hle : l.length ≤ 80 := by omega
    simp [h0, h80, h80i, hle]
    omega

/-- Witness of C2: the case of the specification, a run of 85 characters. -/
theorem soft_wrap_threshold_witness :
    (World.start []).col = 0 ∧ 1 ≤ (String.mk (List.replicate 85 'x')).length ∧
      (∀ c ∈ (String.mk (List.replicate 85 'x')).data, c ≠ ' ' ∧ c ≠ '\n') ∧
      output (printStringFormatted (String.mk (List.replicate 85 'x') ++ " ") (World.start [])) =
        output (World.start []) ++ (String.mk (List.replicate 85 'x')).data ++ ['\n'] ∧
      (printStringFormatted (String.mk (List.replicate 85 'x') ++ " ") (World.start [])).col
        = 0 :=
  have hr : ∀ c ∈ (String.mk (List.replicate 85 'x')).data, c ≠ ' ' ∧ c ≠ '\n' := by
    intro c hc
    have : c = 'x' := (List.mem_replicate.mp hc).2
    subst this
    decide
  ⟨rfl, by decide, hr,
    (soft_wrap_threshold (String.mk (List.replicate 85 'x')) (World.start []) rfl
      (by decide) hr).1 (by decide)⟩

/-- C3: from cursor 0, a text behind `k` leading spaces writes the same output and leaves
the same cursor as the text alone. -/
theorem leading_spaces_suppressed (k : Nat) (s : String) (w : World) (hw : w.col = 0) :
    output (printStringFormatted (String.mk (List.replicate k ' ') ++ s) w) =
        output (printStringFormatted s w) ∧
      (printStringFormatted (String.mk (List.replicate k ' ') ++ s) w).col =
        (printStringFormatted s w).col := by
  obtain ⟨l⟩ := s
  have hsp := printStringFormatted_spaces k w hw
  obtain ⟨hcol, d, hd1, hd2⟩ :=
    printStringFormatted_frame l (printStringFormatted ⟨List.replicate k ' '⟩ w) w
      (by rw [hsp.2, hw])
  rw [printStringFormatted_append]
  exact ⟨by rw [hd1, hd2, hsp.1], hcol⟩

/-- Witness of C3: the text " abc" from cursor 0 gives the output "abc" and the cursor 3. -/
theorem leading_spaces_suppressed_witness :
    (World.start []).col = 0 ∧
      (output (printStringFormatted (String.mk (List.replicate 1 ' ') ++ "abc")
          (World.start [])) = output (printStringFormatted "abc" (World.start [])) ∧
        (printStringFormatted (String.mk (List.replicate 1 ' ') ++ "abc") (World.start [])).col
          = (printStringFormatted "abc" (World.start [])).col) ∧
      String.mk (List.replicate 1 ' ') ++ "abc" = " abc" ∧
      output (printStringFormatted "abc" (World.start [])) = ['a', 'b', 'c'] ∧
      (printStringFormatted "abc" (World.start [])).col = 3 :=
  ⟨rfl, leading_spaces_suppressed 1 "abc" (World.start []) rfl, by decide, by decide,
    by decide⟩

/-- C4: whatever the cursor, a text sleeps the per-character delay of 30 ms once per
character and the sentence delay of 300 ms once per period, the sentence delay of a period
before its per-character delay, and nothing else; the time slept grows by 30 ms for each
character plus 300 ms for each period. -/
theorem pacing (text : String) (w : World) :
    sleepTime.character = 30 * Millisecond ∧ sleepTime.sentence = 300 * Millisecond ∧
      sleeps (printStringFormatted text w) =
        sleeps w ++
          (text.data.map (fun c =>
            if c = '.' then [sleepTime.sentence, sleepTime.character]
            else [sleepTime.character])).flatten ∧
      (sleeps (printStringFormatted text w)).count sleepTime.character =
        (sleeps w).count sleepTime.character + text.length ∧
      (sleeps (printStringFormatted text w)).count sleepTime.sentence =
        (sleeps w).count sleepTime.sentence + text.data.count '.' ∧
      timeSlept (printStringFormatted text w) =
        timeSlept w + 30 * Millisecond * text.length +
          300 * Millisecond * text.data.count '.' := by
  obtain ⟨l⟩ := text
  have hs := sleeps_printStringFormatted l w
  have hlen : (String.mk l).length = l.length := rfl
  refine ⟨by simp [sleepTime, Millisecond], by simp [sleepTime, Millisecond], hs, ?_, ?_, ?_⟩
  · rw [hs, List.count_append, count_character_delays, hlen]
  · rw [hs, List.count_append, count_sentence_delays]
  · unfold timeSlept
    rw [hs, List.sum_append, sum_delays, hlen, Nat.add_assoc]

/-- C7: from cursor 0, a text without newline that does not begin with a space and has at
most 81 characters is written character for character, and the cursor ends at its
length. -/
theorem short_line_verbatim (text : String) (w : World) (hw : w.col = 0)
    (hnl : '\n' ∉ text.data) (hsp : text.data.head? ≠ some ' ') (hlen : text.length ≤ 81) :
    output (printStringFormatted text w) = output w ++ text.data ∧
      (printStringFormatted text w).col = (text.length : Int) := by
  obtain ⟨l⟩ := text
  cases l with
  | nil => exact ⟨by simp [printStringFormatted], by simpa [printStringFormatted] using hw⟩
  | cons c l =>
    have hc : c ≠ '\n' := fun e => hnl (e ▸ List.mem_cons_self c l)
    have hl : '\n' ∉ l := fun e => hnl (List.mem_cons_of_mem c e)
    have hs : c ≠ ' ' := fun e => hsp (by simp [e])
    have hlen1 : l.length + 1 ≤ 81 := hlen
    have hcol : (printRuneFormatted c w).col = 1 := by
      rw [col_printRuneFormatted]; simp [hc, hs, hw]
    have hout : output (printRuneFormatted c w) = output w ++ [c] := by
      rw [output_printRuneFormatted]; simp [hs]
    have h := printStringFormatted_no_wrap l (printRuneFormatted c w) (by omega) hl
      (by rw [hcol]; omega)
    rw [printStringFormatted_cons, h.1, h.2, hout, hcol]
    refine ⟨by simp, ?_⟩
    show (1 : Int) + (l.length : Int) = ((l.length + 1 : Nat) : Int)
    omega

/-- Witness of C7: the text "a b" from cursor 0 gives the output "a b" and the cursor 3. -/
theorem short_line_verbatim_witness :
    (World.start []).col = 0 ∧ '\n' ∉ "a b".data ∧ "a b".data.head? ≠ some ' ' ∧
      "a b".length ≤ 81 ∧
      output (printStringFormatted "a b" (World.start [])) =
        output (World.start []) ++ "a b".data ∧
      (printStringFormatted "a b" (World.start [])).col = ("a b".length : Int) :=
  ⟨rfl, by decide, by decide, by decide,
    short_line_verbatim "a b" (World.start []) rfl (by decide) (by decide) (by decide)⟩

/-- C8, as amended: for a cursor that is an `int` below the largest, one character other
than a newline, and other than a space arriving past column 80, does not lower the cursor:
it advances it by one, except that a space at column zero leaves it where it is. A newline
sets the cursor to zero, and so does a space arriving past column 80. Nothing lowers the
cursor but a newline, a space arriving past column 80, and the increment at the largest
`int`. -/
theorem Machine_cursor_lowered_only_by_newline_or_wrap (ch : Char) (w : World)
    (hmin : Machine.minInt ≤ w.col) (hmax : w.col ≤ Machine.maxInt) :
    (ch ≠ '\n' → ¬ (ch = ' ' ∧ 80 < w.col) → w.col < Machine.maxInt →
        w.col ≤ (Machine.printRuneFormatted ch w).col ∧
          (Machine.printRuneFormatted ch w).col =
            (if ch = ' ' ∧ w.col = 0 then w.col else w.col + 1)) ∧
      (ch = '\n' → (Machine.printRuneFormatted ch w).col = 0) ∧
      (ch = ' ' → 80 < w.col → (Machine.printRuneFormatted ch w).col = 0) ∧
      ((Machine.printRuneFormatted ch w).col < w.col →
        ch = '\n' ∨ (ch = ' ' ∧ 80 < w.col) ∨ w.col = Machine.maxInt) := by
  have hwrap : w.col < Machine.maxInt → Machine.wrap (w.col + 1) = w.col + 1 := by
    intro h
    exact Machine_wrap_of_range _ (by omega) (by omega)
  have hlt : w.col < Machine.maxInt ∨ w.col = Machine.maxInt := by omega
  rw [Machine_col_printRuneFormatted]
  by_cases h2 : ch = '\n'
  · subst h2; simp
  · by_cases h3 : ch = ' '
    · subst h3
      by_cases h4 : w.col = 0
      · simp [h4]
      · by_cases h5 : w.col > 80
        · have h5i : (80 : Int) < w.col := h5
          simp [h4, h5i]
        · have h5i : ¬ ((80 : Int) < w.col) := h5
          simp only [h2, h4, h5i, if_false, if_true, and_false, false_and, not_false_eq_true,
            forall_true_left, false_or, ne_eq, IsEmpty.forall_iff, and_true, true_and,
            gt_iff_lt]
          rcases hlt with hl | hl
          · rw [hwrap hl]
            exact ⟨fun _ => ⟨by omega, rfl⟩, fun h => by omega⟩
          · exact ⟨fun h => by omega, fun _ => hl⟩
    · simp only [h2, h3, if_false, false_and, not_false_eq_true, forall_true_left, false_or,
        ne_eq, IsEmpty.forall_iff, and_true, true_and]
      rcases hlt with hl | hl
      · rw [hwrap hl]
        exact ⟨fun _ => ⟨by omega, rfl⟩, fun h => by omega⟩
      · exact ⟨fun h => by omega, fun _ => hl⟩

/-- Witness of C8 as amended: the letter a at cursor 5 gives cursor 6, and a space at
cursor 81 gives cursor 0. -/
theorem Machine_cursor_lowered_only_by_newline_or_wrap_witness :
    Machine.minInt ≤ (World.mk 5 [] []).col ∧ (World.mk 5 [] []).col ≤ Machine.maxInt ∧
      Machine.minInt ≤ (World.mk 81 [] []).col ∧ (World.mk 81 [] []).col ≤ Machine.maxInt ∧
      (Machine.printRuneFormatted 'a' (World.mk 5 [] [])).col = 6 ∧
      (Machine.printRuneFormatted ' ' (World.mk 81 [] [])).col = 0 :=
  ⟨by decide, by decide, by decide, by decide,
    ((Machine_cursor_lowered_only_by_newline_or_wrap 'a' (World.mk 5 [] []) (by decide)
      (by decide)).1 (by decide) (by decide) (by decide)).2,
    (Machine_cursor_lowered_only_by_newline_or_wrap ' ' (World.mk 81 [] []) (by decide)
      (by decide)).2.2.1 rfl (by decide)⟩

/-- Counterexample to C8 as stated: a space, which is not a newline, arriving at cursor 81
sets the cursor to zero, below the cursor it found; and the letter a, arriving at the
largest `int`, leaves the smallest `int`. -/
theorem space_past_column_80_resets_cursor :
    (' ' : Char) ≠ '\n' ∧ (Machine.printRuneFormatted ' ' (World.mk 81 [] [])).col = 0 ∧
      (Machine.printRuneFormatted ' ' (World.mk 81 [] [])).col < (World.mk 81 [] []).col ∧
      output (Machine.printRuneFormatted ' ' (World.mk 81 [] [])) = ['\n'] ∧
      ('a' : Char) ≠ '\n' ∧
      (Machine.printRuneFormatted 'a' (World.mk 9223372036854775807 [] [])).col =
        -9223372036854775808 := by
  decide

/-- C9: from the start of the process, after any sequence of calls of `printRuneFormatted`
and `printStringFormatted` the cursor is the number of characters written after the last
newline written. -/
theorem cursor_tracks_output_column (calls : List Call) (stdin : List Char) :
    (runCalls calls (World.start stdin)).col =
      (currentLineLength (output (runCalls calls (World.start stdin))) : Int) :=
  runCalls_tracks calls (World.start stdin) rfl

/-- C10: whatever the cursor, what a text adds to the output is the text up to the edits of
the specification (a space dropped at column zero, a space replaced by one newline past
column 80); it has the visible characters of the text in the same order, at least as many
newlines as the text and at most as many characters. -/
theorem rendering_preserves_visible_text (text : String) (w : World) :
    ∃ d, output (printStringFormatted text w) = output w ++ d ∧
      editsAt w.col text.data d = true ∧ visible d = visible text.data ∧
      text.data.count '\n' ≤ d.count '\n' ∧ d.length ≤ text.length := by
  obtain ⟨l⟩ := text
  exact printStringFormatted_edits l w

/-! ## The driver claims -/

/-- C5: when standard input is a sequence of blank lines (empty or white space only), then a
line with a character other than white space, then anything, `askUser` returns that line
trimmed, after rendering the prompt once per line read; what it returns is not empty,
neither begins nor ends with white space, and is the line without a run of white space at
its beginning and one at its end. -/
theorem askUser_returns_first_visible_line (env : Env) (prompt : String) (w : World)
    (blanks : List (List Char)) (line rest : List Char)
    (hstdin : w.stdin = (blanks.map (fun b => b ++ ['\n'])).flatten ++ (line ++ '\n' :: rest))
    (hblank : ∀ b ∈ blanks, ∀ c ∈ b, IsSpace c = true ∧ c ≠ '\n')
    (hline : '\n' ∉ line) (hvis : ∃ c ∈ line, IsSpace c = false) :
    askUser env prompt w =
        Result.done (TrimSpace ⟨line⟩)
          ⟨((printStringFormatted (prompt ++ " "))^[blanks.length + 1] w).col,
            ((printStringFormatted (prompt ++ " "))^[blanks.length + 1] w).events ++
              [Event.answer (TrimSpace ⟨line⟩)],
            rest.drop (env.readAhead rest)⟩ ∧
      (TrimSpace ⟨line⟩).data ≠ [] ∧
      (∀ c, (TrimSpace ⟨line⟩).data.head? = some c → IsSpace c = false) ∧
      (∀ c, (TrimSpace ⟨line⟩).data.getLast? = some c → IsSpace c = false) ∧
      ∃ pre post, line = pre ++ (TrimSpace ⟨line⟩).data ++ post ∧
        (∀ c ∈ pre, IsSpace c = true) ∧ (∀ c ∈ post, IsSpace c = true) :=
  ⟨askUserLoop_first_visible_line env prompt blanks line rest (w.stdin.length + 1) w
      (Nat.lt_succ_self _) hstdin hblank hline hvis,
    TrimSpace_visible line hvis⟩

/-- Witness of C5: an empty line, a line of two spaces, then the line " go north ". -/
theorem askUser_returns_first_visible_line_witness :
    (World.start "\n  \n go north \nrest".data).stdin =
        ([[], [' ', ' ']].map (fun b => b ++ ['\n'])).flatten ++
          (" go north ".data ++ '\n' :: "rest".data) ∧
      (∀ b ∈ [[], [' ', ' ']], ∀ c ∈ b, IsSpace c = true ∧ c ≠ '\n') ∧
      '\n' ∉ " go north ".data ∧ (∃ c ∈ " go north ".data, IsSpace c = false) ∧
      TrimSpace ⟨" go north ".data⟩ = "go north" ∧
      askUser (Env.mk (fun _ => []) (fun _ => 0)) ">>"
          (World.start "\n  \n go north \nrest".data) =
        Result.done (TrimSpace ⟨" go north ".data⟩)
          ⟨((printStringFormatted (">>" ++ " "))^[[[], [' ', ' ']].length + 1]
              (World.start "\n  \n go north \nrest".data)).col,
            ((printStringFormatted (">>" ++ " "))^[[[], [' ', ' ']].length + 1]
              (World.start "\n  \n go north \nrest".data)).events ++
              [Event.answer (TrimSpace ⟨" go north ".data⟩)],
            "rest".data.drop ((Env.mk (fun _ => []) (fun _ => 0)).readAhead "rest".data)⟩ := by
  have h1 : (World.start "\n  \n go north \nrest".data).stdin =
        ([[], [' ', ' ']].map (fun b => b ++ ['\n'])).flatten ++
          (" go north ".data ++ '\n' :: "rest".data) := by decide
  have h2 : ∀ b ∈ [[], [' ', ' ']], ∀ c ∈ b, IsSpace c = true ∧ c ≠ '\n' := by decide
  have h3 : '\n' ∉ " go north ".data := by decide
  have h4 : ∃ c ∈ " go north ".data, IsSpace c = false := by decide
  have h5 : TrimSpace ⟨" go north ".data⟩ = "go north" := by decide
  have h6 := askUser_returns_first_visible_line (Env.mk (fun _ => []) (fun _ => 0)) ">>"
    (World.start "\n  \n go north \nrest".data) [[], [' ', ' ']] " go north ".data
    "rest".data h1 h2 h3 h4
  have h7 := h6.1
  exact ⟨h1, h2, h3, h4, h5, h7⟩

/-- C6: in every run of `main`, however long and whatever the input and the model answer,
the texts passed to the model are the first answer of `askUser` as it is, followed by each
later answer between "The user wrote: " and "\n\nWrite the next short paragraph."; and when
the input is one line with a visible character for each turn and the model streams are
printable, every one of these answers is read and every one of these texts is sent. -/
theorem texts_sent_to_model (env : Env) (fuel : Nat) (stdin : List Char) :
    sentTexts (main env fuel (World.start stdin)).world =
        expectedTexts (answers (main env fuel (World.start stdin)).world) ∧
      ∀ (lines : List (List Char)) (rest : List Char),
        lines.length = fuel + 1 →
        stdin = (lines.map (fun l => l ++ ['\n'])).flatten ++ rest →
        (∀ l ∈ lines, '\n' ∉ l ∧ ∃ c ∈ l, IsSpace c = false) →
        (∀ msgs, ∀ item ∈ env.reply msgs, item.printable = true) →
        (∀ l, env.readAhead l = 0) →
        ∃ w, main env fuel (World.start stdin) = Result.running w ∧
          answers w = lines.map (fun l => TrimSpace ⟨l⟩) ∧
          sentTexts w = expectedTexts (lines.map (fun l => TrimSpace ⟨l⟩)) ∧
          w.stdin = rest := by
  refine ⟨log_main env fuel stdin, ?_⟩
  intro lines rest hlen hstdin hlines hreply hbuf
  cases lines with
  | nil => simp at hlen
  | cons line later =>
    have hfuel : fuel = later.length := by simpa using hlen.symm
    subst hfuel
    subst hstdin
    exact main_reads_lines env hreply hbuf line later rest
      (hlines line (List.mem_cons_self line later))
      (fun l hl => hlines l (List.mem_cons_of_mem line hl))

/-- Witness of C6: the answer "a forest of glass trees" goes to the model as it is, and the
next answer, " go north " as typed, goes inside the template. -/
theorem texts_sent_to_model_witness :
    [("a forest of glass trees".data), (" go north ".data)].length = 1 + 1 ∧
      "a forest of glass trees\n go north \n".data =
        ([("a forest of glass trees".data), (" go north ".data)].map
          (fun l => l ++ ['\n'])).flatten ++ [] ∧
      (∀ l ∈ [("a forest of glass trees".data), (" go north ".data)],
        '\n' ∉ l ∧ ∃ c ∈ l, IsSpace c = false) ∧
      expectedTexts ([("a forest of glass trees".data), (" go north ".data)].map
          (fun l => TrimSpace ⟨l⟩)) =
        ["a forest of glass trees",
          "The user wrote: go north\n\nWrite the next short paragraph."] ∧
      ∃ w, main (Env.mk (fun _ => [StreamItem.resp [some ["Hi. "]]]) (fun _ => 0)) 1
          (World.start "a forest of glass trees\n go north \n".data) = Result.running w ∧
        answers w = [("a forest of glass trees".data), (" go north ".data)].map
          (fun l => TrimSpace ⟨l⟩) ∧
        sentTexts w = expectedTexts ([("a forest of glass trees".data), (" go north ".data)].map
          (fun l => TrimSpace ⟨l⟩)) ∧
        w.stdin = [] := by
  have h1 : [("a forest of glass trees".data), (" go north ".data)].length = 1 + 1 := rfl
  have h2 : "a forest of glass trees\n go north \n".data =
      ([("a forest of glass trees".data), (" go north ".data)].map
        (fun l => l ++ ['\n'])).flatten ++ [] := by decide
  have h3 : ∀ l ∈ [("a forest of glass trees".data), (" go north ".data)],
      '\n' ∉ l ∧ ∃ c ∈ l, IsSpace c = false := by decide
  have h4 : expectedTexts ([("a forest of glass trees".data), (" go north ".data)].map
      (fun l => TrimSpace ⟨l⟩)) =
        ["a forest of glass trees",
          "The user wrote: go north\n\nWrite the next short paragraph."] := by decide
  have h5 : ∀ msgs, ∀ item ∈
      (Env.mk (fun _ => [StreamItem.resp [some ["Hi. "]]]) (fun _ => 0)).reply msgs,
      item.printable = true := by
    intro msgs item hitem
    have : item = StreamItem.resp [some ["Hi. "]] := by simpa using hitem
    subst this
    rfl
  exact ⟨h1, h2, h3, h4,
    (texts_sent_to_model (Env.mk (fun _ => [StreamItem.resp [some ["Hi. "]]]) (fun _ => 0)) 1
      "a forest of glass trees\n go north \n".data).2
      [("a forest of glass trees".data), (" go north ".data)] [] h1 h2 h3 h5 (fun _ => rfl)⟩

/-! ## The scenarios of the specification -/

/-- The text "Hi." sleeps the per-character delay three times and the sentence delay once,
after the period and before the per-character delay of the period. -/
theorem sleeps_of_Hi :
    sleeps (printStringFormatted "Hi." (World.start [])) =
      [30 * Millisecond, 30 * Millisecond, 300 * Millisecond, 30 * Millisecond] := by
  decide

end Adventure
